import Mathlib

/-!
Shallow embedding of the two RSA modules of the repository
(`src/crypto/asymmetric/rsa/rsa.py`, embedded in namespace `ARsa`, and
`src/crypto/rsa.py`, embedded in namespace `Rsa`), together with theorems
settling the specification claims about them.

Python's arbitrary-precision integers are embedded as `Int`.  Python's `%`
and `//` on integers are floor-mod and floor-div, i.e. `Int.fmod` and
`Int.fdiv`.  `math.gcd` returns a non-negative integer, i.e. `Int.gcd`.
Python exceptions are embedded with `Except Err`; the distinct error
messages (and the builtin `ZeroDivisionError` / `TypeError` / the
`StopIteration` escaping from `next`) are mapped to the constructors of
`Err` following the spec's error taxonomy.
-/

/-- Error taxonomy of the two modules: each constructor stands for one of the
`raise` sites or builtin Python exceptions reachable in the embedded code. -/
inductive Err where
  | notCoprime
  | emptySequence
  | invalidInput
  | invalidMethod
  | invalidExponent
  | zeroDivision
  | valueError
  | typeError
  deriving DecidableEq, Repr

deriving instance DecidableEq for Except

/-- Embedding of Python's `str.lower` as used on the method names (ASCII
lowercasing, character by character). -/
def strLower (s : String) : String := ⟨s.data.map Char.toLower⟩

/-- Bounds for `Int.fmod` with a negative divisor: the floor-mod takes the
sign of the divisor, so for `a < 0` we have `a < b.fmod a ≤ 0`. -/
theorem fmod_bounds_neg (b : Int) {a : Int} (ha : a < 0) :
    a < b.fmod a ∧ b.fmod a ≤ 0 := by
  obtain ⟨n, rfl⟩ : ∃ n : Nat, a = Int.negSucc n := by
    cases a with
    | ofNat m => exact absurd ha (by exact Int.not_lt.mpr (Int.ofNat_nonneg m))
    | negSucc n => exact ⟨n, rfl⟩
  cases b with
  | ofNat m =>
    cases m with
    | zero =>
      show Int.negSucc n < Int.fmod 0 (Int.negSucc n) ∧ Int.fmod 0 (Int.negSucc n) ≤ 0
      rw [Int.zero_fmod]
      omega
    | succ m' =>
      have h : Int.fmod (Int.ofNat (m' + 1)) (Int.negSucc n) =
          Int.subNatNat (m' % (n + 1)) n := rfl
      rw [h, Int.subNatNat_eq_coe, Int.negSucc_eq]
      have hlt : m' % (n + 1) < n + 1 := Nat.mod_lt m' (by omega)
      omega
  | negSucc m =>
    have h : Int.fmod (Int.negSucc m) (Int.negSucc n) =
        -Int.ofNat ((m + 1) % (n + 1)) := rfl
    rw [h, Int.negSucc_eq, Int.ofNat_eq_coe]
    have hlt : (m + 1) % (n + 1) < n + 1 := Nat.mod_lt (m + 1) (by omega)
    omega

/-- For a nonzero divisor, floor-mod strictly decreases the absolute value;
this is the measure used for the termination of `egcd`. -/
theorem natAbs_fmod_lt (b : Int) {a : Int} (h : a ≠ 0) :
    (b.fmod a).natAbs < a.natAbs := by
  rcases lt_trichotomy a 0 with ha | ha | ha
  · have hb := fmod_bounds_neg b ha
    omega
  · exact absurd ha h
  · have h1 := Int.fmod_nonneg' b ha
    have h2 := Int.fmod_lt_of_pos b ha
    omega

namespace ARsa

/-- Fuel-indexed recursion of `egcd` from `src/crypto/asymmetric/rsa/rsa.py`:
base case `egcd(0, b) = (b, 0, 1)`; otherwise the Python code binds
`g, v, u = egcd(b % a, a)` and returns `(g, u - (b // a) * v, v)`, i.e.
from the recursive triple `(g, u', v')` it returns `(g, v' - (b // a) * u', u')`.
The fuel models the recursion depth, `none` standing for a hypothetical
exhaustion of the call stack. -/
def egcdFuel (fuel : Nat) (a b : Int) : Option (Int × Int × Int) :=
  match fuel with
  | 0 => none
  | fuel' + 1 =>
    if a = 0 then some (b, 0, 1)
    else
      match egcdFuel fuel' (b.fmod a) a with
      | none => none
      | some r => some (r.1, r.2.2 - (b.fdiv a) * r.2.1, r.2.1)

/-- Embedding of `egcd`: the recursion depth is bounded by `|a|`
(`natAbs_fmod_lt`), so fuel `a.natAbs + 1` realizes the source's recursion in
full; the `none` fallback is unreachable (`egcdFuel_ne_none`). -/
def egcd (a b : Int) : Int × Int × Int :=
  match egcdFuel (a.natAbs + 1) a b with
  | some r => r
  | none => (0, 0, 0)

/-- Embedding of `modinv`: computes `egcd(a, m)`, raises `NotCoprime` when the
returned `g` differs from `1`, otherwise returns `u % m` (Python `%` on a zero
modulus raises `ZeroDivisionError`). -/
def modinv (a m : Int) : Except Err Int :=
  let r := egcd a m
  if r.1 ≠ 1 then Except.error Err.notCoprime
  else if m = 0 then Except.error Err.zeroDivision
  else Except.ok (r.2.1.fmod m)

/-- Embedding of `lcm`: `a * b // gcd(a, b)`, where Python's `math.gcd` is the
non-negative gcd and `//` on a zero divisor raises `ZeroDivisionError`. -/
def lcm (a b : Int) : Except Err Int :=
  if Int.gcd a b = 0 then Except.error Err.zeroDivision
  else Except.ok ((a * b).fdiv (Int.gcd a b))

/-- Embedding of `foldl` (instance for an operation that cannot raise):
iterates over the sequence accumulating through the operation. -/
def foldl {α β : Type} (op : α → β → α) (acc : α) : List β → α
  | [] => acc
  | x :: xs => foldl op (op acc x) xs

/-- Embedding of `foldl` for an operation that can raise (Python exceptions
propagate out of the loop); same recursion as `foldl` in the `Except` monad. -/
def foldlE {α β : Type} (op : α → β → Except Err α) (acc : α) :
    List β → Except Err α
  | [] => Except.ok acc
  | x :: xs =>
    match op acc x with
    | Except.error e => Except.error e
    | Except.ok acc' => foldlE op acc' xs

/-- Embedding of `foldl1` from `src/crypto/asymmetric/rsa/rsa.py`:
`next(generator)` on an exhausted generator raises (`EmptySequence`), otherwise
the first element seeds `foldl` over the remaining elements, and the fold's
value is returned. -/
def foldl1 {α : Type} (op : α → α → Except Err α) : List α → Except Err α
  | [] => Except.error Err.emptySequence
  | x :: xs => foldlE op x xs

/-- Embedding of `prod`: `foldl(lambda a, b: a * b, 1, factors)`. -/
def prod (factors : List Int) : Int :=
  foldl (fun a b => a * b) 1 factors

/-- Embedding of `compute_n`: raises `InvalidInput` when no factor is given or
when the product is not strictly positive, otherwise returns the product. -/
def compute_n (factors : List Int) : Except Err Int :=
  if factors.length < 1 then Except.error Err.invalidInput
  else
    let n := prod factors
    if n < 1 then Except.error Err.invalidInput
    else Except.ok n

/-- Embedding of `compute_phi`: rejects methods other than `euler` and
`carmichael` (after lowercasing) with `InvalidMethod`, rejects an empty factor
list with `InvalidInput`; Euler returns `prod(x - 1 for x in factors)`,
Carmichael returns `foldl1(lcm, (x - 1 for x in factors))`. -/
def compute_phi (factors : List Int) (method : String) : Except Err Int :=
  if strLower method ≠ "euler" ∧ strLower method ≠ "carmichael" then
    Except.error Err.invalidMethod
  else if factors.length < 1 then Except.error Err.invalidInput
  else if strLower method = "euler" then
    Except.ok (prod (factors.map (fun x => x - 1)))
  else
    foldl1 lcm (factors.map (fun x => x - 1))

/-- Embedding of `compute_d`: when `phi < 1` (the unset sentinel) the totient
is derived via `compute_phi(*factors, method=phi_method)` (where the default
`factors=None` makes the `*` unpacking raise `TypeError`); then `e < 1` raises
`InvalidExponent`; finally `modinv(e, phi)` yields `d`. -/
def compute_d (e phi : Int) (factors : Option (List Int)) (phi_method : String) :
    Except Err Int :=
  match (if phi < 1 then
          match factors with
          | none => Except.error Err.typeError
          | some fs => compute_phi fs phi_method
         else Except.ok phi) with
  | Except.error err => Except.error err
  | Except.ok phiv =>
    if e < 1 then Except.error Err.invalidExponent
    else modinv e phiv

/-- Embedding of Python's three-argument `pow(b, ex, n)`: a zero modulus raises
`ZeroDivisionError`; a negative exponent requires `b` invertible modulo `n`
(otherwise `ValueError`) and powers the inverse; otherwise `b ^ ex mod n`,
the result carrying the sign of the modulus (floor-mod). -/
def pow3 (b ex n : Int) : Except Err Int :=
  if n = 0 then Except.error Err.zeroDivision
  else if ex < 0 then
    if Int.gcd b n ≠ 1 then Except.error Err.valueError
    else Except.ok ((Int.gcdA b n ^ (-ex).toNat).fmod n)
  else Except.ok ((b ^ ex.toNat).fmod n)

/-- Embedding of `decrypt`: when `n < 1` it is derived by `compute_n(*factors)`;
when `d < 1` it is derived by `compute_d(e=e, phi=phi, factors=factors)` — the
Python call does not forward `phi_method`, so `compute_d` runs with its default
method `'euler'`; finally `pow(ct, d, n)`. -/
def decrypt (ct d n e : Int) (factors : List Int) (phi : Int)
    (phi_method : String) : Except Err Int :=
  match (if n < 1 then compute_n factors else Except.ok n) with
  | Except.error err => Except.error err
  | Except.ok nv =>
    match (if d < 1 then compute_d e phi (some factors) "euler"
           else Except.ok d) with
    | Except.error err => Except.error err
    | Except.ok dv => pow3 ct dv nv

/-- Embedding of `encrypt`: when `n < 1` it is derived by `compute_n(*factors)`;
then `pow(pt, e, n)`. -/
def encrypt (pt e n : Int) (factors : List Int) : Except Err Int :=
  match (if n < 1 then compute_n factors else Except.ok n) with
  | Except.error err => Except.error err
  | Except.ok nv => pow3 pt e nv

end ARsa

namespace Rsa

/-- Fuel-indexed recursion of `egcd` from `src/crypto/rsa.py`: identical
recursion to the asymmetric copy, with the recursive triple bound as
`g, y, x = egcd(b % a, a)` and the result `(g, x - (b // a) * y, y)`. -/
def egcdFuel (fuel : Nat) (a b : Int) : Option (Int × Int × Int) :=
  match fuel with
  | 0 => none
  | fuel' + 1 =>
    if a = 0 then some (b, 0, 1)
    else
      match egcdFuel fuel' (b.fmod a) a with
      | none => none
      | some r => some (r.1, r.2.2 - (b.fdiv a) * r.2.1, r.2.1)

/-- Embedding of `egcd` from `src/crypto/rsa.py`, realized with the same
sufficient fuel as the asymmetric copy. -/
def egcd (a b : Int) : Int × Int × Int :=
  match egcdFuel (a.natAbs + 1) a b with
  | some r => r
  | none => (0, 0, 0)

/-- Embedding of `modinv` from `src/crypto/rsa.py` (textually identical to the
asymmetric copy). -/
def modinv (a m : Int) : Except Err Int :=
  let r := egcd a m
  if r.1 ≠ 1 then Except.error Err.notCoprime
  else if m = 0 then Except.error Err.zeroDivision
  else Except.ok (r.2.1.fmod m)

/-- Embedding of `lcm` from `src/crypto/rsa.py` (textually identical to the
asymmetric copy). -/
def lcm (a b : Int) : Except Err Int :=
  if Int.gcd a b = 0 then Except.error Err.zeroDivision
  else Except.ok ((a * b).fdiv (Int.gcd a b))

/-- Embedding of `foldl` from `src/crypto/rsa.py` (instance for an operation
that cannot raise). -/
def foldl {α β : Type} (op : α → β → α) (acc : α) : List β → α
  | [] => acc
  | x :: xs => foldl op (op acc x) xs

/-- Embedding of `foldl` from `src/crypto/rsa.py` for an operation that can
raise. -/
def foldlE {α β : Type} (op : α → β → Except Err α) (acc : α) :
    List β → Except Err α
  | [] => Except.ok acc
  | x :: xs =>
    match op acc x with
    | Except.error e => Except.error e
    | Except.ok acc' => foldlE op acc' xs

/-- Embedding of `foldl1` from `src/crypto/rsa.py`: this copy evaluates
`foldl(operation, next(generator), generator)` but has no `return` statement,
so on success the Python function returns `None` — embedded as `Option` with
result `none` — while exceptions of the fold still propagate. -/
def foldl1 {α : Type} (op : α → α → Except Err α) : List α → Except Err (Option α)
  | [] => Except.error Err.emptySequence
  | x :: xs =>
    match foldlE op x xs with
    | Except.error e => Except.error e
    | Except.ok _ => Except.ok none

/-- Embedding of `prod` from `src/crypto/rsa.py`. -/
def prod (factors : List Int) : Int :=
  foldl (fun a b => a * b) 1 factors

/-- Embedding of `rsa_compute_n`: raises `InvalidInput` when no factor is given
or when any factor is `< 1`, otherwise returns the product (this copy does not
re-check the sign of the product). -/
def rsa_compute_n (factors : List Int) : Except Err Int :=
  if factors.length < 1 ∨ factors.any (fun x => decide (x < 1)) then
    Except.error Err.invalidInput
  else Except.ok (prod factors)

/-- Embedding of `rsa_compute_phi`: method check as in the asymmetric copy;
raises `InvalidInput` when no factor is given or any factor is `< 1`; Euler
returns the product of the `(x - 1)` terms; Carmichael returns the value of
this module's `foldl1`, which is `None` on success. -/
def rsa_compute_phi (factors : List Int) (method : String) :
    Except Err (Option Int) :=
  if strLower method ≠ "euler" ∧ strLower method ≠ "carmichael" then
    Except.error Err.invalidMethod
  else if factors.length < 1 ∨ factors.any (fun x => decide (x < 1)) then
    Except.error Err.invalidInput
  else if strLower method = "euler" then
    Except.ok (some (prod (factors.map (fun x => x - 1))))
  else
    foldl1 lcm (factors.map (fun x => x - 1))

/-- Embedding of `rsa_compute_d`: when `phi < 1` the totient is derived via
`rsa_compute_phi` (default `factors=None` raises `TypeError` at unpacking, and
a `None` totient — the Carmichael path — reaches `egcd(e, None)` whose
`None % e` raises `TypeError`, since `e ≥ 1 ≠ 0` at that point); `e < 1`
raises `InvalidExponent` before `modinv` runs. -/
def rsa_compute_d (e phi : Int) (factors : Option (List Int))
    (phi_method : String) : Except Err Int :=
  match (if phi < 1 then
          match factors with
          | none => Except.error Err.typeError
          | some fs => rsa_compute_phi fs phi_method
         else Except.ok (some phi)) with
  | Except.error err => Except.error err
  | Except.ok phiOpt =>
    if e < 1 then Except.error Err.invalidExponent
    else
      match phiOpt with
      | none => Except.error Err.typeError
      | some phiv => modinv e phiv

/-- Embedding of Python's three-argument `pow` as used by `src/crypto/rsa.py`
(same builtin as in the asymmetric module). -/
def pow3 (b ex n : Int) : Except Err Int :=
  if n = 0 then Except.error Err.zeroDivision
  else if ex < 0 then
    if Int.gcd b n ≠ 1 then Except.error Err.valueError
    else Except.ok ((Int.gcdA b n ^ (-ex).toNat).fmod n)
  else Except.ok ((b ^ ex.toNat).fmod n)

/-- Embedding of `rsa_decrypt`: derives `n` by `rsa_compute_n(*factors)` when
`n < 1`, derives `d` by `rsa_compute_d(e=e, phi=phi, factors=factors)` when
`d < 1` — like the asymmetric copy it does not forward `phi_method` — then
`pow(ct, d, n)`. -/
def rsa_decrypt (ct d n e : Int) (factors : List Int) (phi : Int)
    (phi_method : String) : Except Err Int :=
  match (if n < 1 then rsa_compute_n factors else Except.ok n) with
  | Except.error err => Except.error err
  | Except.ok nv =>
    match (if d < 1 then rsa_compute_d e phi (some factors) "euler"
           else Except.ok d) with
    | Except.error err => Except.error err
    | Except.ok dv => pow3 ct dv nv

/-- Embedding of `rsa_encrypt`: derives `n` by `rsa_compute_n(*factors)` when
`n < 1`, then `pow(pt, e, n)`. -/
def rsa_encrypt (pt e n : Int) (factors : List Int) : Except Err Int :=
  match (if n < 1 then rsa_compute_n factors else Except.ok n) with
  | Except.error err => Except.error err
  | Except.ok nv => pow3 pt e nv

end Rsa

namespace ARsa

/-- Unfolding of `egcdFuel` at a successor fuel. -/
theorem egcdFuel_succ (f : Nat) (a b : Int) :
    egcdFuel (f + 1) a b =
      if a = 0 then some (b, 0, 1)
      else
        match egcdFuel f (b.fmod a) a with
        | none => none
        | some r => some (r.1, r.2.2 - (b.fdiv a) * r.2.1, r.2.1) := rfl

/-- The value of `egcdFuel` does not depend on the fuel once it exceeds the
recursion depth `|a|`. -/
theorem egcdFuel_irrel (fuel : Nat) : ∀ (fuel' : Nat) (a b : Int),
    a.natAbs < fuel → a.natAbs < fuel' →
    egcdFuel fuel a b = egcdFuel fuel' a b := by
  induction fuel with
  | zero =>
    intro fuel' a b h _
    exact absurd h (Nat.not_lt_zero _)
  | succ f ih =>
    intro fuel' a b h h'
    cases fuel' with
    | zero => exact absurd h' (Nat.not_lt_zero _)
    | succ f' =>
      rw [egcdFuel_succ, egcdFuel_succ]
      by_cases ha : a = 0
      · rw [if_pos ha, if_pos ha]
      · rw [if_neg ha, if_neg ha]
        have hlt := natAbs_fmod_lt b ha
        rw [ih f' (b.fmod a) a (by omega) (by omega)]

/-- With fuel exceeding `|a|` the recursion completes. -/
theorem egcdFuel_ne_none (fuel : Nat) : ∀ (a b : Int), a.natAbs < fuel →
    egcdFuel fuel a b ≠ none := by
  induction fuel with
  | zero =>
    intro a b h
    exact absurd h (Nat.not_lt_zero _)
  | succ f ih =>
    intro a b h
    rw [egcdFuel_succ]
    by_cases ha : a = 0
    · rw [if_pos ha]
      simp
    · rw [if_neg ha]
      have hlt := natAbs_fmod_lt b ha
      cases hE : egcdFuel f (b.fmod a) a with
      | none => exact absurd hE (ih _ _ (by omega))
      | some r => simp

/-- `egcdFuel` with the canonical fuel computes `egcd`. -/
theorem egcdFuel_eq_egcd (a b : Int) :
    egcdFuel (a.natAbs + 1) a b = some (egcd a b) := by
  unfold egcd
  cases hE : egcdFuel (a.natAbs + 1) a b with
  | none => exact absurd hE (egcdFuel_ne_none _ a b (by omega))
  | some r => rfl

/-- Unfolding of `egcd` at the base case. -/
theorem egcd_zero (b : Int) : egcd 0 b = (b, 0, 1) := rfl

/-- Unfolding of `egcd` at the recursive case. -/
theorem egcd_rec (a b : Int) (h : a ≠ 0) :
    egcd a b = ((egcd (b.fmod a) a).1,
      (egcd (b.fmod a) a).2.2 - b.fdiv a * (egcd (b.fmod a) a).2.1,
      (egcd (b.fmod a) a).2.1) := by
  have hlt := natAbs_fmod_lt b h
  have h2 : egcdFuel a.natAbs (b.fmod a) a = some (egcd (b.fmod a) a) := by
    rw [egcdFuel_irrel a.natAbs ((b.fmod a).natAbs + 1) (b.fmod a) a (by omega)
      (by omega)]
    exact egcdFuel_eq_egcd _ _
  have h3 : egcdFuel (a.natAbs + 1) a b =
      some ((egcd (b.fmod a) a).1,
        (egcd (b.fmod a) a).2.2 - b.fdiv a * (egcd (b.fmod a) a).2.1,
        (egcd (b.fmod a) a).2.1) := by
    rw [egcdFuel_succ, if_neg h, h2]
  exact Option.some.inj ((egcdFuel_eq_egcd a b).symm.trans h3)

/-- Bezout identity of `egcd`: the returned coefficients satisfy
`a * u + b * v = g` on every pair of integers. -/
theorem egcd_bezout (a b : Int) :
    a * (egcd a b).2.1 + b * (egcd a b).2.2 = (egcd a b).1 := by
  by_cases ha : a = 0
  · subst ha
    rw [egcd_zero]
    ring
  · rw [egcd_rec a b ha]
    have hf : b.fmod a = b - a * (b.fdiv a) := Int.fmod_def b a
    have ihr := egcd_bezout (b.fmod a) a
    dsimp only
    linear_combination ihr - (egcd (b.fmod a) a).2.1 * hf
termination_by a.natAbs
decreasing_by exact natAbs_fmod_lt b ha

/-- The gcd is invariant under replacing `(a, b)` by `(b mod a, a)`. -/
theorem gcd_fmod_step (a b : Int) : Int.gcd (b.fmod a) a = Int.gcd a b := by
  have hf : b.fmod a = b - a * (b.fdiv a) := Int.fmod_def b a
  apply Nat.dvd_antisymm
  · rw [← Int.natCast_dvd_natCast]
    apply Int.dvd_gcd
    · exact Int.gcd_dvd_right
    · have h1 : (↑(Int.gcd (b.fmod a) a) : Int) ∣ b.fmod a := Int.gcd_dvd_left
      have h2 : (↑(Int.gcd (b.fmod a) a) : Int) ∣ a := Int.gcd_dvd_right
      have hsum : (↑(Int.gcd (b.fmod a) a) : Int) ∣ b.fmod a + a * (b.fdiv a) :=
        dvd_add h1 (h2.mul_right _)
      have hb : b.fmod a + a * (b.fdiv a) = b := by rw [hf]; ring
      rwa [hb] at hsum
  · rw [← Int.natCast_dvd_natCast]
    apply Int.dvd_gcd
    · have h1 : (↑(Int.gcd a b) : Int) ∣ a := Int.gcd_dvd_left
      have h2 : (↑(Int.gcd a b) : Int) ∣ b := Int.gcd_dvd_right
      rw [hf]
      exact dvd_sub h2 (h1.mul_right _)
    · exact Int.gcd_dvd_left

/-- The absolute value of the first component returned by `egcd` is the
(non-negative) gcd of the arguments, on every pair of integers. -/
theorem egcd_gcd_natAbs (a b : Int) : ((egcd a b).1).natAbs = Int.gcd a b := by
  by_cases ha : a = 0
  · subst ha
    rw [egcd_zero]
    simp [Int.gcd]
  · rw [egcd_rec a b ha]
    dsimp only
    rw [egcd_gcd_natAbs (b.fmod a) a, gcd_fmod_step a b]
termination_by a.natAbs
decreasing_by exact natAbs_fmod_lt b ha

/-- On non-negative arguments the first component returned by `egcd` is
non-negative. -/
theorem egcd_g_nonneg (a b : Int) (ha : 0 ≤ a) (hb : 0 ≤ b) :
    0 ≤ (egcd a b).1 := by
  by_cases h : a = 0
  · subst h
    rw [egcd_zero]
    exact hb
  · rw [egcd_rec a b h]
    dsimp only
    exact egcd_g_nonneg (b.fmod a) a (Int.fmod_nonneg' b (by omega)) ha
termination_by a.natAbs
decreasing_by exact natAbs_fmod_lt b h

/-- On non-negative arguments `egcd` returns exactly the gcd. -/
theorem egcd_gcd_of_nonneg (a b : Int) (ha : 0 ≤ a) (hb : 0 ≤ b) :
    (egcd a b).1 = (Int.gcd a b : Int) := by
  have h1 := egcd_gcd_natAbs a b
  have h2 := egcd_g_nonneg a b ha hb
  omega

/-- Success case of `modinv`: on non-negative `a`, modulus at least `2` and
coprime arguments it returns the normalized Bezout coefficient, which lies in
`[0, m)` and is a modular inverse of `a`. -/
theorem modinv_ok (a m : Int) (ha : 0 ≤ a) (hm : 2 ≤ m)
    (hco : Int.gcd a m = 1) :
    modinv a m = Except.ok (((egcd a m).2.1).fmod m) ∧
    0 ≤ ((egcd a m).2.1).fmod m ∧ ((egcd a m).2.1).fmod m < m ∧
    (a * (((egcd a m).2.1).fmod m)).fmod m = 1 := by
  have hg : (egcd a m).1 = 1 := by
    rw [egcd_gcd_of_nonneg a m ha (by omega), hco]
    rfl
  have hmpos : (0 : Int) < m := by omega
  refine ⟨?_, Int.fmod_nonneg' _ hmpos, Int.fmod_lt_of_pos _ hmpos, ?_⟩
  · simp [modinv, hg]
    omega
  · have hbez := egcd_bezout a m
    rw [hg] at hbez
    have hdu : ((egcd a m).2.1).fmod m ≡ (egcd a m).2.1 [ZMOD m] := by
      show ((egcd a m).2.1).fmod m % m = (egcd a m).2.1 % m
      rw [Int.fmod_eq_emod _ (by omega), Int.emod_emod_of_dvd _ dvd_rfl]
    have h1 : a * (egcd a m).2.1 ≡ 1 [ZMOD m] := by
      rw [Int.modEq_iff_dvd]
      exact ⟨(egcd a m).2.2, by linarith⟩
    have h2 : a * (((egcd a m).2.1).fmod m) ≡ 1 [ZMOD m] :=
      (Int.ModEq.mul_left a hdu).trans h1
    have h3 : (a * (((egcd a m).2.1).fmod m)) % m = 1 % m := h2
    rw [Int.fmod_eq_emod _ (by omega), h3, Int.emod_eq_of_lt (by omega) (by omega)]

/-- Failure case of `modinv`: on non-negative arguments that are not coprime
it raises `NotCoprime`. -/
theorem modinv_notCoprime (a m : Int) (ha : 0 ≤ a) (hm : 0 ≤ m)
    (hco : Int.gcd a m ≠ 1) :
    modinv a m = Except.error Err.notCoprime := by
  have hg : (egcd a m).1 ≠ 1 := by
    rw [egcd_gcd_of_nonneg a m ha hm]
    omega
  simp [modinv, hg]

/-- The embedded `foldl` with multiplication computes `acc` times the list
product. -/
theorem foldl_mul (acc : Int) (l : List Int) :
    foldl (fun a b => a * b) acc l = acc * l.prod := by
  induction l generalizing acc with
  | nil => simp [foldl]
  | cons x xs ih =>
    rw [foldl, ih, List.prod_cons]
    ring

/-- The embedded `prod` is the list product. -/
theorem prod_eq (l : List Int) : prod l = l.prod := by
  simp [prod, foldl_mul]

end ARsa

/-- Fermat's little theorem in the form used for RSA: for a prime `p` and any
exponent of the shape `k * (p - 1) + 1`, powering is the identity modulo `p`. -/
theorem pow_totient_prime (p : Nat) (hp : p.Prime) (k M : Nat) :
    M ^ (k * (p - 1) + 1) ≡ M [MOD p] := by
  haveI : Fact p.Prime := ⟨hp⟩
  rw [← ZMod.natCast_eq_natCast_iff]
  push_cast
  by_cases h : (M : ZMod p) = 0
  · rw [h, zero_pow (by omega)]
  · rw [pow_succ, mul_comm k (p - 1), pow_mul,
      ZMod.pow_card_sub_one_eq_one h, one_pow, one_mul]

/-- Simultaneous congruences modulo the members of a pairwise-coprime list
combine into a congruence modulo the list product. -/
theorem modEq_list_prod (l : List Nat) (x y : Nat)
    (hco : l.Pairwise Nat.Coprime)
    (h : ∀ p ∈ l, x ≡ y [MOD p]) : x ≡ y [MOD l.prod] := by
  induction l with
  | nil => simp [Nat.modEq_one]
  | cons p l ih =>
    rw [List.prod_cons]
    have hcons := List.pairwise_cons.mp hco
    have hcop : Nat.Coprime p l.prod :=
      Nat.coprime_list_prod_right_iff.mpr hcons.1
    exact (Nat.modEq_and_modEq_iff_modEq_mul hcop).mp
      ⟨h p (List.mem_cons_self p l),
       ih hcons.2 (fun q hq => h q (List.mem_cons_of_mem p hq))⟩

/-- Powering by an exponent congruent to `1` modulo every `p - 1` is the
identity modulo the product of a list of pairwise-distinct primes. -/
theorem pow_prod_primes (P : List Nat) (M ED : Nat)
    (hprime : ∀ p ∈ P, p.Prime)
    (hdist : P.Pairwise (· ≠ ·))
    (hED : ∀ p ∈ P, ED ≡ 1 [MOD p - 1])
    (hED1 : 1 ≤ ED) :
    M ^ ED ≡ M [MOD P.prod] := by
  apply modEq_list_prod
  · exact hdist.imp_of_mem (fun {a b} ha hb hne =>
      (Nat.coprime_primes (hprime a ha) (hprime b hb)).mpr hne)
  · intro p hp
    have hpp := hprime p hp
    have hd : (p - 1) ∣ ED - 1 := (Nat.modEq_iff_dvd' hED1).mp (hED p hp).symm
    obtain ⟨k, hk⟩ := hd
    have hED' : ED = k * (p - 1) + 1 := by
      rw [mul_comm k (p - 1)]
      omega
    rw [hED']
    exact pow_totient_prime p hpp k M

/-- Core RSA round-trip over the naturals: encrypt-then-decrypt is the
identity below the modulus, for a list of pairwise-distinct prime factors and
exponents whose product is `1` modulo the Euler totient. -/
theorem rsa_core (P : List Nat) (M E D : Nat)
    (hprime : ∀ p ∈ P, p.Prime)
    (hdist : P.Pairwise (· ≠ ·))
    (hED : E * D ≡ 1 [MOD (P.map (fun p => p - 1)).prod])
    (hE : 1 ≤ E) (hD : 1 ≤ D)
    (hM : M < P.prod) :
    ((M ^ E % P.prod) ^ D) % P.prod = M := by
  have h1 : M ^ (E * D) ≡ M [MOD P.prod] := by
    apply pow_prod_primes P M (E * D) hprime hdist
    · intro p hp
      have hdvd : (p - 1) ∣ (P.map (fun p => p - 1)).prod :=
        List.dvd_prod (List.mem_map.mpr ⟨p, hp, rfl⟩)
      exact (Nat.ModEq.of_dvd hdvd) hED
    · exact Nat.one_le_iff_ne_zero.mpr (by positivity)
  have h2 : (M ^ E % P.prod) ^ D ≡ M [MOD P.prod] := by
    calc (M ^ E % P.prod) ^ D
        ≡ (M ^ E) ^ D [MOD P.prod] := Nat.ModEq.pow D (Nat.mod_modEq _ _)
      _ = M ^ (E * D) := by rw [← pow_mul]
      _ ≡ M [MOD P.prod] := h1
  calc ((M ^ E % P.prod) ^ D) % P.prod = M % P.prod := h2
    _ = M := Nat.mod_eq_of_lt hM

/-- Product of a list of non-negative integers, as the cast of the product of
the absolute values. -/
theorem list_prod_natAbs (l : List Int) (h : ∀ p ∈ l, 0 ≤ p) :
    l.prod = ((l.map Int.natAbs).prod : Int) := by
  induction l with
  | nil => simp
  | cons x xs ih =>
    simp only [List.map_cons, List.prod_cons, Nat.cast_mul]
    rw [ih (fun p hp => h p (List.mem_cons_of_mem x hp)),
      Int.natAbs_of_nonneg (h x (List.mem_cons_self x xs))]

/-- On positive integers, mapping `x - 1` and then `natAbs` is mapping
`natAbs` and then the truncated `p - 1`. -/
theorem map_sub_one_natAbs (l : List Int) (h : ∀ p ∈ l, 1 ≤ p) :
    (l.map (fun x => x - 1)).map Int.natAbs =
      (l.map Int.natAbs).map (fun p => p - 1) := by
  rw [List.map_map, List.map_map]
  apply List.map_congr_left
  intro p hp
  have h1 := h p hp
  simp only [Function.comp_apply]
  omega

/-- Floor-mod of casts of naturals is the cast of the natural mod. -/
theorem int_fmod_natCast (a b : Nat) :
    ((a : Int)).fmod (b : Int) = ((a % b : Nat) : Int) := by
  rw [Int.fmod_eq_emod _ (by positivity), Int.ofNat_mod_ofNat]

/-- Success of `compute_n` on a non-empty list with positive product. -/
theorem ARsa.compute_n_ok (factors : List Int) (hne : factors ≠ [])
    (hpos : 1 ≤ ARsa.prod factors) :
    ARsa.compute_n factors = Except.ok (ARsa.prod factors) := by
  have hlen : ¬ factors.length < 1 := by
    cases factors with
    | nil => exact absurd rfl hne
    | cons x xs => simp
  unfold ARsa.compute_n
  rw [if_neg hlen, if_neg (by omega)]

/-- Success of `compute_phi` with the Euler method on a non-empty list. -/
theorem ARsa.compute_phi_euler (factors : List Int) (hne : factors ≠ []) :
    ARsa.compute_phi factors "euler" =
      Except.ok (ARsa.prod (factors.map (fun x => x - 1))) := by
  have hlen : ¬ factors.length < 1 := by
    cases factors with
    | nil => exact absurd rfl hne
    | cons x xs => simp
  unfold ARsa.compute_phi
  rw [if_neg (by decide), if_neg hlen, if_pos (by decide)]

/-- C1 (amended): the RSA round-trip through the embedded `encrypt` and
`decrypt`, with `n` and `d` derived from the factor list, restores every
message `0 ≤ m < n` provided the factors are pairwise-distinct positive
primes, the exponent is positive and coprime to the Euler totient, and the
Euler totient exceeds `1`. -/
theorem claim1_roundtrip (factors : List Int) (e m : Int)
    (hfac : ∀ p ∈ factors, 0 < p ∧ Nat.Prime p.natAbs)
    (hdist : factors.Pairwise (· ≠ ·))
    (hne : factors ≠ [])
    (he : 1 ≤ e)
    (hphi : 1 < ARsa.prod (factors.map (fun x => x - 1)))
    (hgcd : Int.gcd e (ARsa.prod (factors.map (fun x => x - 1))) = 1)
    (hm0 : 0 ≤ m) (hmn : m < ARsa.prod factors) :
    (ARsa.encrypt m e (-1) factors).bind
      (fun c => ARsa.decrypt c (-1) (-1) e factors (-1) "euler") =
      Except.ok m := by
  have hp2 : ∀ p ∈ factors, 2 ≤ p := by
    intro p hp
    have h1 := (hfac p hp).1
    have h2 := (hfac p hp).2.two_le
    omega
  have hn1 : 1 ≤ ARsa.prod factors := by
    rw [ARsa.prod_eq]
    have : 0 < factors.prod := List.prod_pos (fun p hp => (hfac p hp).1)
    omega
  have hcn := ARsa.compute_n_ok factors hne hn1
  set n := ARsa.prod factors with hn_def
  set φ := ARsa.prod (factors.map (fun x => x - 1)) with hφ_def
  obtain ⟨hmi, hd0, hdφ, hinv⟩ := ARsa.modinv_ok e φ (by omega) (by omega) hgcd
  set d := ((ARsa.egcd e φ).2.1).fmod φ with hd_def
  have hd1 : 1 ≤ d := by
    rcases lt_or_ge d 1 with hlt | hge
    · have hd00 : d = 0 := by omega
      rw [hd00, mul_zero, Int.zero_fmod] at hinv
      exact absurd hinv (by norm_num)
    · exact hge
  have hcd : ARsa.compute_d e (-1) (some factors) "euler" = Except.ok d := by
    unfold ARsa.compute_d
    rw [if_pos (by norm_num)]
    show (match ARsa.compute_phi factors "euler" with
          | Except.error err => Except.error err
          | Except.ok phiv =>
            if e < 1 then Except.error Err.invalidExponent
            else ARsa.modinv e phiv) = _
    rw [ARsa.compute_phi_euler factors hne, ← hφ_def]
    show (if e < 1 then Except.error Err.invalidExponent else ARsa.modinv e φ) = _
    rw [if_neg (by omega), hmi]
  have henc : ARsa.encrypt m e (-1) factors =
      Except.ok ((m ^ e.toNat).fmod n) := by
    unfold ARsa.encrypt
    rw [if_pos (by norm_num), hcn]
    show ARsa.pow3 m e n = _
    unfold ARsa.pow3
    rw [if_neg (by omega), if_neg (by omega)]
  have hdec : ARsa.decrypt ((m ^ e.toNat).fmod n) (-1) (-1) e factors (-1)
      "euler" = Except.ok ((((m ^ e.toNat).fmod n) ^ d.toNat).fmod n) := by
    unfold ARsa.decrypt
    rw [if_pos (by norm_num), hcn]
    show (match (if (-1 : Int) < 1 then ARsa.compute_d e (-1) (some factors)
            "euler" else Except.ok (-1)) with
          | Except.error err => Except.error err
          | Except.ok dv => ARsa.pow3 ((m ^ e.toNat).fmod n) dv n) = _
    rw [if_pos (by norm_num), hcd]
    show ARsa.pow3 ((m ^ e.toNat).fmod n) d n = _
    unfold ARsa.pow3
    rw [if_neg (by omega), if_neg (by omega)]
  rw [henc]
  show ARsa.decrypt ((m ^ e.toNat).fmod n) (-1) (-1) e factors (-1) "euler" = _
  rw [hdec]
  -- it remains to evaluate the double modular power; move to the naturals
  set P := factors.map Int.natAbs with hP_def
  have hprimes : ∀ q ∈ P, q.Prime := by
    intro q hq
    obtain ⟨p, hp, rfl⟩ := List.mem_map.mp hq
    exact (hfac p hp).2
  have hPdist : P.Pairwise (· ≠ ·) := by
    rw [hP_def, List.pairwise_map]
    refine hdist.imp_of_mem (fun {p q} hp hq hne' => ?_)
    have h1 := hp2 p hp
    have h2 := hp2 q hq
    intro hEq
    exact hne' (by omega)
  have hNs : n = ((P.prod : Nat) : Int) := by
    rw [hn_def, ARsa.prod_eq,
      list_prod_natAbs factors (fun p hp => le_of_lt (hfac p hp).1), hP_def]
  have hφs : φ = (((P.map (fun p => p - 1)).prod : Nat) : Int) := by
    rw [hφ_def, ARsa.prod_eq,
      list_prod_natAbs _ (fun q hq => by
        obtain ⟨p, hp, rfl⟩ := List.mem_map.mp hq
        have := hp2 p hp
        omega),
      map_sub_one_natAbs factors (fun p hp => by have := hp2 p hp; omega), hP_def]
  set M := m.toNat with hM_def
  set E := e.toNat with hE_def
  set D := d.toNat with hD_def
  have hM : M < P.prod := by
    have := hmn
    rw [hNs] at this
    omega
  have hED : E * D ≡ 1 [MOD (P.map (fun p => p - 1)).prod] := by
    have h1 : (e * d).fmod φ = 1 := hinv
    rw [hφs] at h1
    have hφge : (2 : Int) ≤ (((P.map (fun p => p - 1)).prod : Nat) : Int) := by
      rw [← hφs]; omega
    have hme : m = (M : Int) := by omega
    have hee : e = (E : Int) := by omega
    have hdd : d = (D : Int) := by omega
    rw [hee, hdd, ← Nat.cast_mul, int_fmod_natCast] at h1
    have h2 : E * D % (P.map (fun p => p - 1)).prod = 1 := by exact_mod_cast h1
    show E * D % (P.map (fun p => p - 1)).prod = 1 % (P.map (fun p => p - 1)).prod
    rw [h2, Nat.mod_eq_of_lt (by omega)]
  have hcore := rsa_core P M E D hprimes hPdist hED (by omega) (by omega) hM
  have hme : m = (M : Int) := by omega
  rw [hNs, hme]
  rw [show ((M : Int)) ^ e.toNat = ((M ^ E : Nat) : Int) by
    rw [← hE_def, Nat.cast_pow]]
  rw [int_fmod_natCast]
  rw [show (((M ^ E % P.prod : Nat) : Int)) ^ d.toNat =
      (((M ^ E % P.prod) ^ D : Nat) : Int) by rw [← hD_def, Nat.cast_pow]]
  rw [int_fmod_natCast, hcore]

/-- C1 witness: factors [3, 5], e = 3, m = 7 round-trips through the embedded
encrypt and decrypt. -/
theorem claim1_roundtrip_witness :
    (∀ p ∈ ([3, 5] : List Int), 0 < p ∧ Nat.Prime p.natAbs) ∧
    (1 : Int) < ARsa.prod (([3, 5] : List Int).map (fun x => x - 1)) ∧
    Int.gcd 3 (ARsa.prod (([3, 5] : List Int).map (fun x => x - 1))) = 1 ∧
    (ARsa.encrypt 7 3 (-1) [3, 5]).bind
      (fun c => ARsa.decrypt c (-1) (-1) 3 [3, 5] (-1) "euler") =
      Except.ok 7 :=
  ⟨by decide, by decide, by decide,
    claim1_roundtrip [3, 5] 3 7 (by decide) (by decide) (by decide) (by decide)
      (by decide) (by decide) (by decide) (by decide)⟩

/-- C1 counterexample: the claim fails as stated for arbitrary factor lists.
With the non-prime factor list [4], e = 5 (coprime to the Euler totient 3) and
message 2 < 4 = n, the round-trip yields 0, not 2; and even with the prime
factor list [2], e = 1 and message 0, the Euler totient is 1, the derived d is
0, and the round-trip yields 0^0 mod 2 = 1, not 0. -/
theorem claim1_counterexample :
    (Int.gcd 5 (ARsa.prod (([4] : List Int).map (fun x => x - 1))) = 1 ∧
     (0 : Int) ≤ 2 ∧ (2 : Int) < ARsa.prod [4] ∧
     (ARsa.encrypt 2 5 (-1) [4]).bind
       (fun c => ARsa.decrypt c (-1) (-1) 5 [4] (-1) "euler") ≠
       Except.ok 2) ∧
    ((∀ p ∈ ([2] : List Int), 0 < p ∧ Nat.Prime p.natAbs) ∧
     Int.gcd 1 (ARsa.prod (([2] : List Int).map (fun x => x - 1))) = 1 ∧
     (0 : Int) ≤ 0 ∧ (0 : Int) < ARsa.prod [2] ∧
     (ARsa.encrypt 0 1 (-1) [2]).bind
       (fun c => ARsa.decrypt c (-1) (-1) 1 [2] (-1) "euler") ≠
       Except.ok 0) := by
  decide

/-- C2 (amended): for `0 ≤ a` and modulus `m ≥ 2`, `modinv` returns a value in
`[0, m)` satisfying `(a * modinv(a, m)) % m = 1` when `gcd(a, m) = 1`, and
fails with `NotCoprime` — the sole failure mode on this domain — when
`gcd(a, m) ≠ 1`. -/
theorem claim2_modinv (a m : Int) (ha : 0 ≤ a) (hm : 2 ≤ m) :
    (Int.gcd a m = 1 →
      ∃ d, ARsa.modinv a m = Except.ok d ∧ 0 ≤ d ∧ d < m ∧
        (a * d).fmod m = 1) ∧
    (Int.gcd a m ≠ 1 → ARsa.modinv a m = Except.error Err.notCoprime) := by
  constructor
  · intro hco
    obtain ⟨h1, h2, h3, h4⟩ := ARsa.modinv_ok a m ha hm hco
    exact ⟨_, h1, h2, h3, h4⟩
  · intro hco
    exact ARsa.modinv_notCoprime a m ha (by omega) hco

/-- C2 witness: modinv 3 5 inverts 3 modulo 5, and modinv 4 8 raises
NotCoprime. -/
theorem claim2_modinv_witness :
    (∃ d, ARsa.modinv 3 5 = Except.ok d ∧ 0 ≤ d ∧ d < 5 ∧
      ((3 : Int) * d).fmod 5 = 1) ∧
    ARsa.modinv 4 8 = Except.error Err.notCoprime :=
  ⟨(claim2_modinv 3 5 (by decide) (by decide)).1 (by decide),
   (claim2_modinv 4 8 (by decide) (by decide)).2 (by decide)⟩

/-- C2 counterexample: `gcd(-1, 3) = 1`, yet `modinv (-1) 3` raises
`NotCoprime` (the recursion propagates the sign of `a`, so `egcd (-1) 3`
returns `g = -1 ≠ 1`), refuting the claim on arbitrary integer pairs. -/
theorem claim2_counterexample :
    Int.gcd (-1) 3 = 1 ∧
    ARsa.modinv (-1) 3 = Except.error Err.notCoprime := by
  decide

/-- C3 (amended): `egcd` satisfies the Bezout identity `a*u + b*v = g` on
every pair of integers including `a = 0`; `|g| = gcd(a, b)` always; and
`g = gcd(a, b)` itself whenever both arguments are non-negative. -/
theorem claim3_egcd (a b : Int) :
    a * (ARsa.egcd a b).2.1 + b * (ARsa.egcd a b).2.2 = (ARsa.egcd a b).1 ∧
    ((ARsa.egcd a b).1).natAbs = Int.gcd a b ∧
    (0 ≤ a → 0 ≤ b → (ARsa.egcd a b).1 = (Int.gcd a b : Int)) :=
  ⟨ARsa.egcd_bezout a b, ARsa.egcd_gcd_natAbs a b,
    fun ha hb => ARsa.egcd_gcd_of_nonneg a b ha hb⟩

/-- C3 witness: at (0, 12) the Bezout identity holds and g is the gcd. -/
theorem claim3_egcd_witness :
    (0 : Int) * (ARsa.egcd 0 12).2.1 + 12 * (ARsa.egcd 0 12).2.2 =
      (ARsa.egcd 0 12).1 ∧
    (ARsa.egcd 0 12).1 = (Int.gcd 0 12 : Int) :=
  ⟨(claim3_egcd 0 12).1, (claim3_egcd 0 12).2.2 (by decide) (by decide)⟩

/-- C3 counterexample: at (0, -3), a pair with a = 0, `egcd` returns
`g = -3`, which differs from `gcd(0, -3) = 3`. -/
theorem claim3_counterexample :
    ARsa.egcd 0 (-3) = (-3, 0, 1) ∧
    (ARsa.egcd 0 (-3)).1 ≠ (Int.gcd 0 (-3) : Int) := by
  decide

/-- C4: on every non-empty factor list, `compute_phi` with the Carmichael
method returns the `foldl1` of the module's `lcm` over the `(factor - 1)`
terms; and for factors 61, 53 the Euler method gives 3120 while the
Carmichael method gives 780 = lcm(60, 52). -/
theorem claim4_carmichael :
    (∀ factors : List Int, factors ≠ [] →
      ARsa.compute_phi factors "carmichael" =
        ARsa.foldl1 ARsa.lcm (factors.map (fun x => x - 1))) ∧
    ARsa.compute_phi [61, 53] "euler" = Except.ok 3120 ∧
    ARsa.compute_phi [61, 53] "carmichael" = Except.ok 780 := by
  refine ⟨?_, by decide, by decide⟩
  intro factors hne
  have hlen : ¬ factors.length < 1 := by
    cases factors with
    | nil => exact absurd rfl hne
    | cons x xs => simp
  unfold ARsa.compute_phi
  rw [if_neg (by decide), if_neg hlen, if_neg (by decide)]

/-- C4 witness: the general Carmichael clause evaluated at [61, 53]. -/
theorem claim4_carmichael_witness :
    ARsa.compute_phi [61, 53] "carmichael" =
      ARsa.foldl1 ARsa.lcm (([61, 53] : List Int).map (fun x => x - 1)) :=
  claim4_carmichael.1 [61, 53] (by decide)

/-- C5 (bug evidence): the `foldl1` of `src/crypto/rsa.py` computes the fold
but has no `return` statement, so on the addition operation and the two
element sequence [1, 2] it yields `None`, while `foldl(op, 1, [2]) = 3`; the
copy in `src/crypto/asymmetric/rsa/rsa.py` does return 3. -/
theorem claim5_foldl1_bug :
    Rsa.foldl1 (fun a b => Except.ok (a + b)) [1, 2] = Except.ok none ∧
    Rsa.foldl (fun a b => a + b) (1 : Int) [2] = 3 ∧
    ARsa.foldl1 (fun a b => Except.ok (a + b)) [1, 2] = Except.ok 3 := by
  decide

/-- The fuel recursions of the two `egcd` copies coincide. -/
theorem egcdFuel_eq_both (fuel : Nat) : ∀ (a b : Int),
    Rsa.egcdFuel fuel a b = ARsa.egcdFuel fuel a b := by
  induction fuel with
  | zero =>
    intro a b
    rfl
  | succ f ih =>
    intro a b
    show (if a = 0 then some (b, 0, 1)
          else match Rsa.egcdFuel f (b.fmod a) a with
            | none => none
            | some r => some (r.1, r.2.2 - (b.fdiv a) * r.2.1, r.2.1)) =
         (if a = 0 then some (b, 0, 1)
          else match ARsa.egcdFuel f (b.fmod a) a with
            | none => none
            | some r => some (r.1, r.2.2 - (b.fdiv a) * r.2.1, r.2.1))
    rw [ih]

/-- The two `egcd` copies coincide. -/
theorem egcd_eq_both (a b : Int) : Rsa.egcd a b = ARsa.egcd a b := by
  unfold Rsa.egcd ARsa.egcd
  rw [egcdFuel_eq_both]

/-- The two `modinv` copies coincide. -/
theorem modinv_eq_both (a m : Int) : Rsa.modinv a m = ARsa.modinv a m := by
  unfold Rsa.modinv ARsa.modinv
  rw [egcd_eq_both]

/-- The two `lcm` copies coincide. -/
theorem lcm_eq_both (a b : Int) : Rsa.lcm a b = ARsa.lcm a b := rfl

/-- The two `foldl` copies coincide. -/
theorem foldl_eq_both {α β : Type} (op : α → β → α) (acc : α) (l : List β) :
    Rsa.foldl op acc l = ARsa.foldl op acc l := by
  induction l generalizing acc with
  | nil => rfl
  | cons x xs ih => rw [Rsa.foldl, ARsa.foldl, ih]

/-- C6 (amended): the Number Theory Kernel operations `egcd`, `modinv`, `lcm`
and the helper `foldl` of the two modules agree on every input; the remaining
operations diverge (see the counterexample). -/
theorem claim6_kernel_agreement :
    (∀ a b : Int, Rsa.egcd a b = ARsa.egcd a b) ∧
    (∀ a m : Int, Rsa.modinv a m = ARsa.modinv a m) ∧
    (∀ a b : Int, Rsa.lcm a b = ARsa.lcm a b) ∧
    (∀ (op : Int → Int → Int) (acc : Int) (l : List Int),
      Rsa.foldl op acc l = ARsa.foldl op acc l) :=
  ⟨egcd_eq_both, modinv_eq_both, lcm_eq_both,
    fun op acc l => foldl_eq_both op acc l⟩

/-- C6 counterexample: on the input (-2, -3) the modulus computation of
`src/crypto/asymmetric/rsa/rsa.py` returns 6 while the one of
`src/crypto/rsa.py` fails with `InvalidInput`, so the two modules do have a
behavioral divergence. -/
theorem claim6_counterexample :
    ARsa.compute_n [-2, -3] = Except.ok 6 ∧
    Rsa.rsa_compute_n [-2, -3] = Except.error Err.invalidInput := by
  decide

/-- C7 (bug evidence): `decrypt` does not forward `phi_method` to `compute_d`,
so the supplied Carmichael method is silently ignored. With ciphertext 2,
e = 3, factors [5, 5] and phi_method 'carmichael' (d, n, phi unset) it returns
23 = 2^11 mod 25, the exponent 11 coming from the Euler totient 16; deriving d
from the Carmichael totient 4 as the claim states would give d = 3 and
plaintext 2^3 mod 25 = 8. -/
theorem claim7_phi_method_bug :
    ARsa.decrypt 2 (-1) (-1) 3 [5, 5] (-1) "carmichael" = Except.ok 23 ∧
    ARsa.compute_phi [5, 5] "carmichael" = Except.ok 4 ∧
    ARsa.modinv 3 4 = Except.ok 3 ∧
    ARsa.pow3 2 3 25 = Except.ok 8 ∧
    (23 : Int) ≠ 8 := by
  decide

/-- C8 (amended): `compute_d` with `e < 1` fails with `InvalidExponent`
whenever the totient is supplied directly (`phi ≥ 1`) or its derivation from
the factor list succeeds; when the derivation itself fails its error is
raised instead (see the counterexample). -/
theorem claim8_invalid_exponent (e phi : Int) (factors : Option (List Int))
    (phi_method : String) (he : e < 1)
    (hd : 1 ≤ phi ∨ ∃ fs v, factors = some fs ∧
      ARsa.compute_phi fs phi_method = Except.ok v) :
    ARsa.compute_d e phi factors phi_method =
      Except.error Err.invalidExponent := by
  unfold ARsa.compute_d
  rcases hd with hphi | ⟨fs, v, rfl, hok⟩
  · rw [if_neg (by omega)]
    show (if e < 1 then Except.error Err.invalidExponent
          else ARsa.modinv e phi) = _
    rw [if_pos he]
  · by_cases hphi : phi < 1
    · rw [if_pos hphi]
      show (match ARsa.compute_phi fs phi_method with
            | Except.error err => Except.error err
            | Except.ok phiv =>
              if e < 1 then Except.error Err.invalidExponent
              else ARsa.modinv e phiv) = _
      rw [hok]
      show (if e < 1 then Except.error Err.invalidExponent
            else ARsa.modinv e v) = _
      rw [if_pos he]
    · rw [if_neg hphi]
      show (if e < 1 then Except.error Err.invalidExponent
            else ARsa.modinv e phi) = _
      rw [if_pos he]

/-- C8 witness: with e = 0 and the totient 5 supplied directly, `compute_d`
fails with `InvalidExponent`. -/
theorem claim8_invalid_exponent_witness :
    ARsa.compute_d 0 5 none "euler" = Except.error Err.invalidExponent :=
  claim8_invalid_exponent 0 5 none "euler" (by decide) (Or.inl (by decide))

/-- C8 counterexample: with `e = 0 < 1`, the totient unset and an empty
factor list, `compute_d` fails with `InvalidInput` coming from the totient
derivation (which runs before the exponent check), not with
`InvalidExponent`. -/
theorem claim8_counterexample :
    ARsa.compute_d 0 (-1) (some []) "euler" = Except.error Err.invalidInput ∧
    Err.invalidInput ≠ Err.invalidExponent := by
  decide

/-- C9: the recursion of `egcd` terminates on every pair of integers,
including negative values and zero: any fuel exceeding `|a|` makes the
fuel-indexed recursion return the triple `egcd a b` — never `none` and never
an error. -/
theorem claim9_egcd_total (a b : Int) (fuel : Nat) (h : a.natAbs < fuel) :
    ARsa.egcdFuel fuel a b = some (ARsa.egcd a b) := by
  rw [ARsa.egcdFuel_irrel fuel (a.natAbs + 1) a b h (by omega)]
  exact ARsa.egcdFuel_eq_egcd a b

/-- C9 witness: at (-4, 6) with fuel 5 the recursion completes. -/
theorem claim9_egcd_total_witness :
    ARsa.egcdFuel 5 (-4) 6 = some (ARsa.egcd (-4) 6) :=
  claim9_egcd_total (-4) 6 5 (by decide)

/-- C10: when `d ≥ 1` and `n ≥ 1` are supplied, `decrypt` returns
`ct ^ d mod n` without validating or reading `e`, `factors`, `phi` or
`phi_method`, so any two calls agreeing on `ct`, `d` and `n` return the same
result. -/
theorem claim10_decrypt_noninterference (ct d n : Int)
    (e phi : Int) (factors : List Int) (mth : String)
    (e' phi' : Int) (factors' : List Int) (mth' : String)
    (hd : 1 ≤ d) (hn : 1 ≤ n) :
    ARsa.decrypt ct d n e factors phi mth =
      Except.ok ((ct ^ d.toNat).fmod n) ∧
    ARsa.decrypt ct d n e factors phi mth =
      ARsa.decrypt ct d n e' factors' phi' mth' := by
  have key : ∀ (e0 phi0 : Int) (f0 : List Int) (m0 : String),
      ARsa.decrypt ct d n e0 f0 phi0 m0 =
        Except.ok ((ct ^ d.toNat).fmod n) := by
    intro e0 phi0 f0 m0
    unfold ARsa.decrypt
    rw [if_neg (by omega)]
    show (match (if d < 1 then ARsa.compute_d e0 phi0 (some f0) "euler"
            else Except.ok d) with
          | Except.error err => Except.error err
          | Except.ok dv => ARsa.pow3 ct dv n) = _
    rw [if_neg (by omega)]
    show ARsa.pow3 ct d n = _
    unfold ARsa.pow3
    rw [if_neg (by omega), if_neg (by omega)]
  exact ⟨key e phi factors mth,
    (key e phi factors mth).trans (key e' phi' factors' mth').symm⟩

/-- C10 witness: two calls sharing ct = 7, d = 2, n = 10 but differing in
every other parameter return the same value 9 = 49 mod 10. -/
theorem claim10_decrypt_noninterference_witness :
    ARsa.decrypt 7 2 10 3 [11] 5 "euler" =
      Except.ok (((7 : Int) ^ (2 : Int).toNat).fmod 10) ∧
    ARsa.decrypt 7 2 10 3 [11] 5 "euler" =
      ARsa.decrypt 7 2 10 (-9) [] (-1) "rsa" :=
  claim10_decrypt_noninterference 7 2 10 3 5 [11] "euler" (-9) (-1) [] "rsa"
    (by decide) (by decide)
